import Mathlib

/-!
Shallow embedding of the lattice-reduction / constant-recognition core of
`mpmath/calculus.py` (the `pslq`, `findpoly` and `identify` functions together
with their string formatters), and theorems checking the natural-language
specification against it.

Conventions used throughout:
* Python arbitrary-precision integers are `Int`; Python `//` (floor division)
  is `Int.fdiv`, Python `%` is `Int.fmod`, Python `<<`/`>>` are multiplication
  and floor division by a power of two (`shl`/`shr` below).
* `mpf` arbitrary-precision reals are modelled by `MpReal`, exact fractions of
  big integers (every `mpf` value is a dyadic rational, so this embeds them
  exactly; the spec treats the numeric engine supplying `+ - * / sqrt exp log`
  as an external collaborator, and the transcendental part of that engine is
  abstracted as a `NumEngine` parameter below).
* Python dict-based matrices are total functions `Int → Int → Int`; entries the
  source never writes are read as `0`.  The source would raise `KeyError` on
  such reads, which only happens for the degenerate dimension `n = 1`; the key
  domain the source actually writes, and the keys the crashing swap reads, are
  modelled explicitly (`dictKeyWritten`, `swapHKeys`) so that this error path
  is visible to the theorems.
* `assert` statements are modelled as `Except.error`; a raised Python
  exception is an `Except.error` value.  The unguarded integer divisions in the
  initialization phase (which raise `ZeroDivisionError` in Python when a
  partial norm vanishes) are modelled by `Int.fdiv`, whose value at a zero
  divisor is `0`; the divisors involved are exposed as the named quantities
  `pslqT`, `pslqSv`, `pslqH0`, so that a theorem can hypothesize the exact
  conditions under which the Python run raises no exception.
-/

namespace MP

/-- Modelled from the spec: the arbitrary-precision real type of the external
numeric engine (mpmath `mpf`).  Every `mpf` value is a dyadic rational, so an
exact fraction `num / den` of big integers represents it exactly.  All
operations keep `den > 0` when both operands have positive denominator. -/
structure MpReal where
  num : Int
  den : Int
deriving DecidableEq

/-- Build an `MpReal` fraction, normalizing the sign into the numerator. -/
def MpReal.mk' (n d : Int) : MpReal := if d < 0 then ⟨-n, -d⟩ else ⟨n, d⟩

/-- Embed an integer. -/
def MpReal.ofInt (n : Int) : MpReal := ⟨n, 1⟩

instance : Mul MpReal := ⟨fun a b => MpReal.mk' (a.num * b.num) (a.den * b.den)⟩

instance : Div MpReal := ⟨fun a b => MpReal.mk' (a.num * b.den) (a.den * b.num)⟩

instance : Add MpReal := ⟨fun a b => MpReal.mk' (a.num * b.den + b.num * a.den) (a.den * b.den)⟩

instance : Neg MpReal := ⟨fun a => ⟨-a.num, a.den⟩⟩

instance : Sub MpReal := ⟨fun a b => a + -b⟩

instance : HPow MpReal Nat MpReal :=
  ⟨fun a k => Nat.rec (MpReal.ofInt 1) (fun _ r => r * a) k⟩

/-- Python `abs` of an engine real. -/
def MpReal.qabs (a : MpReal) : MpReal := ⟨|a.num|, |a.den|⟩

/-- Value equality of engine reals (`==` on mpf values): cross multiplication. -/
def MpReal.qeq (a b : MpReal) : Bool := a.num * b.den == b.num * a.den

/-- Value order of engine reals (`<` on mpf values, denominators positive). -/
def MpReal.qlt (a b : MpReal) : Bool := decide (a.num * b.den < b.num * a.den)

/-- The exact rational value of an `MpReal`. -/
def MpReal.toRat (a : MpReal) : ℚ := (a.num : ℚ) / (a.den : ℚ)

/-- Python `x << k` on integers: multiplication by `2 ^ k`. -/
def shl (a : Int) (k : Nat) : Int := a * 2 ^ k

/-- Python `x >> k` on integers (arithmetic shift): floor division by `2 ^ k`. -/
def shr (a : Int) (k : Nat) : Int := Int.fdiv a (2 ^ k)

/-- Python `range(a, b)` as a list of integers. -/
def pyrange (a b : Int) : List Int := (List.range (b - a).toNat).map (fun k => a + (k : Int))

/-- The helper `round_fixed(x, prec)` from calculus.py: round a fixed-point number to the
nearest integer multiple of `2 ^ prec`, i.e. `((x + (1 << (prec-1))) >> prec) << prec`. -/
def round_fixed (x : Int) (prec : Nat) : Int := shl (shr (x + shl 1 (prec - 1)) prec) prec

/-- Fuel-bounded integer square root auxiliary: exact floor square root of `n`
whenever `4 ^ fuel > n`. -/
def isqrtAux : Nat → Nat → Nat
  | 0, _ => 0
  | fuel + 1, n =>
    if n = 0 then 0
    else
      let r := 2 * isqrtAux fuel (n / 4)
      if (r + 1) * (r + 1) ≤ n then r + 1 else r

/-- Modelled from the spec: `sqrt_fixed` is imported from the external
fixed-point library (`lib`), which is not part of this repository's core
source.  The spec describes the numeric engine as providing `sqrt` on
fixed-point scaled integers: `sqrt_fixed x prec` is the fixed-point square root
`round(sqrt(x / 2^prec) * 2^prec)`, here realized as the floor integer square
root of `x * 2 ^ prec`.  The fuel `2 * prec + 80` makes the result exact for
every `x < 2 ^ (2 * prec + 160) / 2 ^ prec`, which covers all arguments `pslq`
ever passes. -/
def sqrt_fixed (x : Int) (prec : Nat) : Int :=
  Int.ofNat (isqrtAux (2 * prec + 80) (x.toNat * 2 ^ prec))

/-- Modelled from the spec: the fixed-point adapter of the external numeric
engine, converting a real `x` and a bit precision `p` to `round(x · 2^p)`
(spec §4.1).  For `x = n/d` with `d > 0` this is `⌊x·2^p + 1/2⌋`, computed as
`(n · 2^(p+1) + d) fdiv (2 · d)`. -/
def to_fixed (x : MpReal) (p : Nat) : Int :=
  let n := if x.den < 0 then -x.num else x.num
  let d := |x.den|
  Int.fdiv (n * 2 ^ (p + 1) + d) (2 * d)

/-- The mutable state of one `pslq` invocation: the dimension `n`, the padded
working precision `prec` (caller precision plus 60 extra bits), the fixed-point
detection threshold `eps`, the fixed-point vector `y` and the matrices `A`,
`B`, `H` (Python dicts indexed from 1). -/
structure PState where
  n : Nat
  prec : Nat
  eps : Int
  y : Int → Int
  A : Int → Int → Int
  B : Int → Int → Int
  H : Int → Int → Int

/-- One size-reduction step of `pslq` for the index pair `(i, j)` (the shared
body of the initialization step 4 and the main-loop step 4):
`t = round_fixed(H[i,j] << prec // H[j,j])`, then update `y[j]`, row `i` of `H`
(columns `1..j`), row `i` of `A` and column `j` of `B`.  The source computes
`t` via Python `//`, which raises `ZeroDivisionError` when `H[j,j] = 0`; in the
one place where the source catches that exception the caller checks
`H[j,j] = 0` explicitly, and in the initialization (where Python would crash on
degenerate input) this model yields `t = 0`, making the step a no-op. -/
def reduceTerm (st : PState) (i j : Int) : PState :=
  let p := st.prec
  let t := round_fixed (Int.fdiv (shl (st.H i j) p) (st.H j j)) p
  { st with
    y := fun k => if k = j then st.y j + shr (t * st.y i) p else st.y k
    H := fun a b => if a = i ∧ 1 ≤ b ∧ b ≤ j then st.H a b - shr (t * st.H j b) p else st.H a b
    A := fun a b =>
      if a = i ∧ 1 ≤ b ∧ b ≤ (st.n : Int) then st.A a b - shr (t * st.A j b) p else st.A a b
    B := fun a b =>
      if b = j ∧ 1 ≤ a ∧ a ≤ (st.n : Int) then st.B a b + shr (t * st.B a i) p else st.B a b }

/-- Initialization step 4 of `pslq`: for `i = 2..n`, for `j = i-1` down to `1`,
perform the size-reduction step. -/
def prereduce (st : PState) : PState :=
  (pyrange 2 ((st.n : Int) + 1)).foldl
    (fun s i => ((pyrange 1 i).reverse).foldl (fun s2 j => reduceTerm s2 i j) s) st

/-- Main-loop step 1 of `pslq`: choose the pivot row `m` maximizing
`γ^i * |H[i,i]| >> (prec*(i-1))` over `i = 1..n-1`, where
`γ = sqrt_fixed((4 << prec) // 3)` (recomputed inside the loop exactly as in
the source; the source also computes the same constant `g` once before the
loop and never uses it).  `m` starts at `-1` as in the source, so for `n = 1`
the result is `-1`. -/
def pivot (st : PState) : Int :=
  ((pyrange 1 (st.n : Int)).foldl
    (fun (acc : Int × Int) i =>
      let h := st.H i i
      let g := sqrt_fixed (Int.fdiv (shl 4 st.prec) 3) st.prec
      let sz := shr (g ^ i.toNat * |h|) (st.prec * (i - 1).toNat)
      if sz > acc.2 then (i, sz) else acc)
    (-1, -1)).1

/-- Main-loop step 2 of `pslq`: swap entries `m`, `m+1` of `y`, rows `m`, `m+1`
of `H` and `A`, and columns `m`, `m+1` of `B`.  (The source swaps columns
`1..n`; swapping every column is equivalent since entries outside that range
are never written and both read as `0`.) -/
def swapAll (st : PState) (m : Int) : PState :=
  { st with
    y := fun k => if k = m then st.y (m + 1) else if k = m + 1 then st.y m else st.y k
    H := fun a b => if a = m then st.H (m + 1) b else if a = m + 1 then st.H m b else st.H a b
    A := fun a b => if a = m then st.A (m + 1) b else if a = m + 1 then st.A m b else st.A a b
    B := fun a b => if b = m then st.B a (m + 1) else if b = m + 1 then st.B a m else st.B a b }

/-- The 2×2 rotation norm of main-loop step 3:
`t0 = sqrt_fixed((H[m,m]^2 + H[m,m+1]^2) >> prec)`. -/
def rotNorm (st : PState) (m : Int) : Int :=
  sqrt_fixed (shr (st.H m m ^ 2 + st.H m (m + 1) ^ 2) st.prec) st.prec

/-- Main-loop step 3 of `pslq` (given a nonzero rotation norm `t0`): apply the
2×2 rotation with `t1 = H[m,m] << prec // t0`, `t2 = H[m,m+1] << prec // t0` to
columns `m`, `m+1` of rows `m..n` of `H`. -/
def rotate (st : PState) (m : Int) (t0 : Int) : PState :=
  let p := st.prec
  let t1 := Int.fdiv (shl (st.H m m) p) t0
  let t2 := Int.fdiv (shl (st.H m (m + 1)) p) t0
  { st with
    H := fun a b =>
      if m ≤ a ∧ a ≤ (st.n : Int) then
        if b = m then shr (t1 * st.H a m + t2 * st.H a (m + 1)) p
        else if b = m + 1 then shr (-t2 * st.H a m + t1 * st.H a (m + 1)) p
        else st.H a b
      else st.H a b }

/-- Inner loop of main-loop step 4 for a fixed row `i`: walk `j` downwards,
stopping early (Python `break` via the caught `ZeroDivisionError`) as soon as
`H[j,j] = 0`. -/
def reduceRowLoop (i : Int) : List Int → PState → PState
  | [], st => st
  | j :: rest, st => if st.H j j = 0 then st else reduceRowLoop i rest (reduceTerm st i j)

/-- Main-loop step 4 of `pslq`: for `i = m+1..n`, reduce with
`j = min(i-1, m+1)` down to `1`, skipping out on a zero diagonal pivot. -/
def reduceAfterSwap (st : PState) (m : Int) : PState :=
  (pyrange (m + 1) ((st.n : Int) + 1)).foldl
    (fun s i => reduceRowLoop i ((pyrange 1 (min (i - 1) (m + 1) + 1)).reverse) s) st

/-- The candidate relation extracted at coordinate `i` of the termination
check: `vec[j] = int(round_fixed(B[j,i], prec) >> prec)` for `j = 1..n`. -/
def extractVec (st : PState) (i : Int) : List Int :=
  (pyrange 1 ((st.n : Int) + 1)).map (fun j => shr (round_fixed (st.B j i) st.prec) st.prec)

/-- Python `max(abs(v) for v in vec)` for the nonempty integer lists the source
applies it to (all values are nonnegative, so folding from `0` agrees with
Python's `max`). -/
def maxAbs (l : List Int) : Int := l.foldl (fun acc v => max acc |v|) 0

/-- The termination check ending every main-loop iteration of `pslq`: for each
coordinate `i = 1..n`, if `|y[i]| < eps`, extract the candidate relation from
column `i` of `B` and return it provided every coefficient is below `10^6`;
otherwise keep scanning. -/
def termCheck (st : PState) : Option (List Int) :=
  (pyrange 1 ((st.n : Int) + 1)).findSome? (fun i =>
    if |st.y i| < st.eps then
      let vec := extractVec st i
      if maxAbs vec < 10 ^ 6 then some vec else none
    else none)

/-- Result of one main-loop iteration: a relation was returned, the run was
aborted by a zero rotation norm (Python `break` followed by `return None`), or
the loop continues with a new state. -/
inductive StepRes where
  | found (v : List Int)
  | abort
  | next (st : PState)

/-- One full iteration of the `pslq` main loop: pivot selection (`m`), swap,
the 2×2 rotation (only when `m ≤ n-2`, aborting when its norm `t0` is zero),
size reduction, and the termination check.  (The source's locals `m`, `t0` and
the intermediate states appear inlined.) -/
def pslqStep (st : PState) : StepRes :=
  if pivot st ≤ (st.n : Int) - 2 then
    if rotNorm (swapAll st (pivot st)) (pivot st) = 0 then .abort
    else
      match termCheck (reduceAfterSwap
          (rotate (swapAll st (pivot st)) (pivot st)
            (rotNorm (swapAll st (pivot st)) (pivot st))) (pivot st)) with
      | some v => .found v
      | none => .next (reduceAfterSwap
          (rotate (swapAll st (pivot st)) (pivot st)
            (rotNorm (swapAll st (pivot st)) (pivot st))) (pivot st))
  else
    match termCheck (reduceAfterSwap (swapAll st (pivot st)) (pivot st)) with
    | some v => .found v
    | none => .next (reduceAfterSwap (swapAll st (pivot st)) (pivot st))

/-- The fuel-bounded main loop of `pslq` (the source runs
`for REP in range(100)` and returns `None` after the loop). -/
def pslqLoop : Nat → PState → Option (List Int)
  | 0, _ => none
  | fuel + 1, st =>
    match pslqStep st with
    | .found v => some v
    | .abort => none
    | .next st' => pslqLoop fuel st'

/-- The default-threshold exponent of `pslq`: `target = prec // max(2, n)`,
replaced by `int(prec * 0.75)` when below 30.  (`int(prec * 0.75)` equals
`3 * prec / 4` in integer arithmetic for every realizable precision, since
`prec * 0.75` is exact in double precision for `prec < 2^51`.) -/
def pslqTarget (prec n : Nat) : Nat :=
  let t := prec / max 2 n
  if t < 30 then 3 * prec / 4 else t

/-- The detection threshold `pslq` actually uses when the caller supplies no
`eps`: the value `2 ^ (-target)` (`pslqDefaultEps_toRat` below states this in
`ℚ`). -/
def pslqDefaultEps (prec n : Nat) : MpReal := ⟨1, 2 ^ pslqTarget prec n⟩

/-- The fixed-point detection threshold used by a `pslq` run: the supplied
`eps` (or the default when `None`), converted to fixed point at the padded
precision. -/
def pslqEpsF (prec0 n : Nat) (eps? : Option MpReal) : Int :=
  to_fixed (match eps? with
    | none => pslqDefaultEps prec0 n
    | some e => e) (prec0 + 60)

/-- The fixed-point input vector `x[1..n]` of a `pslq` run (source line 692),
read as `0` outside `[1..n]`. -/
def pslqXf (prec0 : Nat) (xq : List MpReal) : Int → Int :=
  fun i => if 1 ≤ i ∧ i ≤ (xq.length : Int) then
    to_fixed (xq.getD (i - 1).toNat (MpReal.ofInt 0)) (prec0 + 60) else 0

/-- The identity matrices `A = B = I` scaled by `2 ^ prec` (source line 701). -/
def pslqIdm (prec0 : Nat) (xq : List MpReal) : Int → Int → Int :=
  fun a b => if a = b ∧ 1 ≤ a ∧ a ≤ (xq.length : Int) then shl 1 (prec0 + 60) else 0

/-- The un-normalized partial Euclidean norms
`s[k] = sqrt(sum of x[j]^2 for j = k..n)` (source lines 704–709). -/
def pslqS0 (prec0 : Nat) (xq : List MpReal) : Int → Int :=
  fun k => sqrt_fixed
    ((pyrange k ((xq.length : Int) + 1)).foldl
      (fun acc j => acc + shr (pslqXf prec0 xq j ^ 2) (prec0 + 60)) 0) (prec0 + 60)

/-- The normalizer `t = s[1]` (source line 710): the divisor of the unguarded
Python `//` on lines 713–714; `t = 0` there raises `ZeroDivisionError`. -/
def pslqT (prec0 : Nat) (xq : List MpReal) : Int := pslqS0 prec0 xq 1

/-- The normalized vector `y[k] = (x[k] << prec) // t` (source line 713). -/
def pslqYv (prec0 : Nat) (xq : List MpReal) : Int → Int :=
  fun k => if 1 ≤ k ∧ k ≤ (xq.length : Int) then
    Int.fdiv (shl (pslqXf prec0 xq k) (prec0 + 60)) (pslqT prec0 xq) else 0

/-- The normalized partial norms `s[k] = (s[k] << prec) // t` (source line
714): the divisors of the unguarded Python `//` on lines 720 (`s[i]`,
`i ≤ n-1`) and 722 (`s[j] * s[j+1]`, `j ≤ n-1`); a zero among `s[1..n]` there
raises `ZeroDivisionError`. -/
def pslqSv (prec0 : Nat) (xq : List MpReal) : Int → Int :=
  fun k => Int.fdiv (shl (pslqS0 prec0 xq k) (prec0 + 60)) (pslqT prec0 xq)

/-- The initial matrix `H` (source lines 716–722).  Its sub-maximal diagonal
entries `H[j,j]`, `j ≤ n-1`, are the divisors of the unguarded Python `//` in
the pre-reduction (line 727, which never rewrites a diagonal before using it);
a zero among them raises `ZeroDivisionError`. -/
def pslqH0 (prec0 : Nat) (xq : List MpReal) : Int → Int → Int :=
  fun i j =>
    if 1 ≤ i ∧ i ≤ (xq.length : Int) ∧ 1 ≤ j ∧ j ≤ (xq.length : Int) then
      if j = i ∧ i ≤ (xq.length : Int) - 1 then
        Int.fdiv (shl (pslqSv prec0 xq (i + 1)) (prec0 + 60)) (pslqSv prec0 xq i)
      else if j < i then
        Int.fdiv (shl (-(pslqYv prec0 xq i * pslqYv prec0 xq j)) (prec0 + 60))
          (pslqSv prec0 xq j * pslqSv prec0 xq (j + 1))
      else 0
    else 0

/-- The initialization phase of `pslq` (steps 1–4 of the source): fix the
threshold, pad the precision by 60 bits, convert the inputs to fixed point,
build `A = B = I`, the partial norms `s`, the normalized vector `y` and the
matrix `H`, and pre-reduce. -/
def pslqInit (prec0 : Nat) (xq : List MpReal) (eps? : Option MpReal) : PState :=
  prereduce
    { n := xq.length, prec := prec0 + 60, eps := pslqEpsF prec0 xq.length eps?,
      y := pslqYv prec0 xq, A := pslqIdm prec0 xq, B := pslqIdm prec0 xq,
      H := pslqH0 prec0 xq }

/-- The dict key domain a `pslq` run of dimension `n` ever writes for the
matrices `A`, `B`, `H`: initialization (source lines 699–702) writes exactly
the keys `[1..n] × [1..n]`, and every later write (lines 728–733, 748–750,
759–763, 772–777) has both components in `[1..n]`.  A Python dict read at any
other key raises `KeyError`. -/
def dictKeyWritten (n : Nat) (k : Int × Int) : Prop :=
  1 ≤ k.1 ∧ k.1 ≤ (n : Int) ∧ 1 ≤ k.2 ∧ k.2 ≤ (n : Int)

instance (n : Nat) (k : Int × Int) : Decidable (dictKeyWritten n k) := by
  unfold dictKeyWritten; infer_instance

/-- The dict keys of `H` read by the main-loop swap of source line 748
(`H[m,i], H[m+1,i] = H[m+1,i], H[m,i]` for `i = 1..n`; Python evaluates the
right-hand tuple left to right, so `H[m+1,i]` is read first). -/
def swapHKeys (n : Nat) (m : Int) : List (Int × Int) :=
  (pyrange 1 ((n : Int) + 1)).flatMap (fun i => [(m + 1, i), (m, i)])

/-- The function `pslq(x, eps=None)` from calculus.py.  The two `assert` statements
(`n >= 1` and `prec >= 53`) are modelled as raised errors; a normal negative
result is `.ok none`. -/
def pslq (prec : Nat) (x : List MpReal) (eps? : Option MpReal) :
    Except String (Option (List Int)) :=
  if x.length < 1 then .error "assertion failed: n >= 1"
  else if prec < 53 then .error "assertion failed: prec >= 53"
  else .ok (pslqLoop 100 (pslqInit prec x eps?))

/-- The `findpoly(x, n)` loop body: for `i = 1..n` extend the power sequence by
`x^i`, run `pslq` on it, and return the reversed relation on the first hit. -/
def findpolyAux (prec : Nat) (x : MpReal) (xs : List MpReal) :
    Int → Nat → Except String (Option (List Int))
  | _, 0 => .ok none
  | i, rem + 1 => do
    let xs' := xs ++ [x ^ i.toNat]
    let a? ← pslq prec xs' none
    match a? with
    | some a => pure (some a.reverse)
    | none => findpolyAux prec x xs' (i + 1) rem

/-- The function `findpoly(x, n=1)` from calculus.py: find an integer polynomial of degree
at most `n` with `x` as approximate root; `x = 0` short-circuits to `[1, 0]`,
and exhausting all degrees returns `None` (Python falls off the end). -/
def findpoly (prec : Nat) (x : MpReal) (n : Nat) : Except String (Option (List Int)) :=
  if x.qeq (MpReal.ofInt 0) then .ok (some [1, 0])
  else findpolyAux prec x [MpReal.ofInt 1] 1 n

/-- The Euclidean loop of `fracgcd`: `while y: x, y = y, x % y` with Python `%`
(`Int.fmod`).  `|y|` strictly decreases, so `|y| + 1` steps of fuel always
suffice. -/
def pygcdAux : Nat → Int → Int → Int
  | 0, x, _ => x
  | fuel + 1, x, y => if y = 0 then x else pygcdAux fuel y (Int.fmod x y)

/-- The formatter `fracgcd(p, q)` from calculus.py: reduce the fraction `p/q` by the
Euclidean gcd; return a plain integer when the reduced denominator is 1, and
the pair otherwise. -/
def fracgcd (p q : Int) : Int ⊕ (Int × Int) :=
  let x := pygcdAux (q.natAbs + 1) p q
  let p' := if x ≠ 1 then Int.fdiv p x else p
  let q' := if x ≠ 1 then Int.fdiv q x else q
  if q' = 1 then .inl p' else .inr (p', q')

/-- Does the character list `pat` occur as a prefix of `l`? -/
def chPrefix : List Char → List Char → Bool
  | [], _ => true
  | _ :: _, [] => false
  | p :: ps, c :: cs => p == c && chPrefix ps cs

/-- Does the character list `pat` occur anywhere in `l`? -/
def chContains (l pat : List Char) : Bool :=
  match l with
  | [] => chPrefix pat []
  | _ :: rest => chPrefix pat l || chContains rest pat

/-- Python `pat in s` substring containment.  (Implemented on the character
lists so that it evaluates by kernel reduction; core `String.splitOn` is
defined by well-founded recursion and does not.) -/
def strContains (s pat : String) : Bool := chContains s.data pat.data

/-- Fuel-bounded core of `strReplace`: replace every non-overlapping
occurrence of `pat` (nonempty) in `l` by `rep`, scanning left to right.  Fuel
`l.length` always suffices. -/
def chReplace (pat rep : List Char) : Nat → List Char → List Char
  | _, [] => []
  | 0, l => l
  | fuel + 1, c :: cs =>
    if chPrefix pat (c :: cs) ∧ pat ≠ [] then
      rep ++ chReplace pat rep fuel ((c :: cs).drop pat.length)
    else c :: chReplace pat rep fuel cs

/-- Python `s.replace(pat, rep)` (all occurrences, left to right).  Implemented
on the character lists so that it evaluates by kernel reduction. -/
def strReplace (s pat rep : String) : String :=
  ⟨chReplace pat.data rep.data s.data.length s.data⟩

/-- The formatter `pslqstring(r, constants)` from calculus.py: render the linear relation
`r` against the constant display names as a sum of fraction-times-name terms.
(`constants[i]` reads out of range are modelled by a default, matching the
source where lengths always agree.) -/
def pslqstring (r : List Int) (constants : List (MpReal × String)) : String :=
  let q := r.headI
  let terms := r.tail.enum.filterMap (fun ip =>
    let p := ip.2
    if p = 0 then none
    else
      let z := fracgcd (-p) q
      let cs0 := (constants.getD ip.1 (MpReal.ofInt 0, "")).2
      let cs := if cs0 = "1" then "" else "*" ++ cs0
      match z with
      | .inl zi =>
        if zi > 0 then some (toString zi ++ cs) else some ("(" ++ toString zi ++ ")" ++ cs)
      | .inr zz => some ("(" ++ toString zz.1 ++ "/" ++ toString zz.2 ++ ")" ++ cs))
  let s := String.intercalate " + " terms
  let s := if strContains s "+" ∨ strContains s "*" then "(" ++ s ++ ")" else s
  if s = "" then "0" else s

/-- The formatter `prodstring(r, constants)` from calculus.py: render a multiplicative
relation as a quotient of powers of the constant names.  Python falls off the
end (returning `None`) when numerator and denominator are both empty. -/
def prodstring (r : List Int) (constants : List (MpReal × String)) : Option String :=
  let q := r.headI
  let nd := r.tail.enum.foldl (fun (acc : List String × List String) ip =>
    let p := ip.2
    if p = 0 then acc
    else
      let z := fracgcd (-p) q
      let cs := (constants.getD ip.1 (MpReal.ofInt 0, "")).2
      match z with
      | .inl zi =>
        let t := if |zi| = 1 then cs else cs ++ "**" ++ toString |zi|
        if zi < 0 then (acc.1, acc.2 ++ [t]) else (acc.1 ++ [t], acc.2)
      | .inr zz =>
        let t := cs ++ "**(" ++ toString |zz.1| ++ "/" ++ toString zz.2 ++ ")"
        if zz.1 < 0 then (acc.1, acc.2 ++ [t]) else (acc.1 ++ [t], acc.2)) ([], [])
  let num := String.intercalate "*" nd.1
  let den := String.intercalate "*" nd.2
  if num ≠ "" ∧ den ≠ "" then some ("(" ++ num ++ ")/(" ++ den ++ ")")
  else if num ≠ "" then some num
  else if den ≠ "" then some ("1/(" ++ den ++ ")")
  else none

/-- Modelled from the spec: the transcendental part of the external
arbitrary-precision numeric engine (`sqrt`, `exp`, `log`), the ambient
machine-epsilon-derived default tolerance `eps ** 0.7`, and the dynamic
expression evaluator Python's `eval(p, mpmath.__dict__)` denotes (spec §6
treats the numeric engine as an out-of-scope collaborator).  `sqrt` of a
negative argument (where mpmath would produce a complex value) is abstracted
by whatever the engine function returns. -/
structure NumEngine where
  sqrt : MpReal → MpReal
  exp : MpReal → MpReal
  log : MpReal → MpReal
  eps07 : MpReal
  evalConst : String → MpReal

/-- The formatter `quadraticstring(t, a, b, c)` from calculus.py: pick whichever quadratic
root is numerically closer to `t` and format it. -/
def quadraticstring (ev : NumEngine) (t : MpReal) (a0 b0 c0 : Int) : String :=
  let a := if c0 < 0 then -a0 else a0
  let b := if c0 < 0 then -b0 else b0
  let c := if c0 < 0 then -c0 else c0
  let disc := b ^ 2 - 4 * a * c
  let sq := ev.sqrt (MpReal.ofInt disc)
  let u1 := (MpReal.ofInt (-b) + sq) / MpReal.ofInt (2 * c)
  let u2 := (MpReal.ofInt (-b) - sq) / MpReal.ofInt (2 * c)
  if ((u1 - t).qabs).qlt ((u2 - t).qabs) then
    if b ≠ 0 then "((" ++ toString (-b) ++ "+sqrt(" ++ toString disc ++ "))/" ++ toString (2 * c) ++ ")"
    else "(sqrt(" ++ toString (-4 * a * c) ++ ")/" ++ toString (2 * c) ++ ")"
  else
    if b ≠ 0 then "((" ++ toString (-b) ++ "-sqrt(" ++ toString disc ++ "))/" ++ toString (2 * c) ++ ")"
    else "(-sqrt(" ++ toString (-4 * a * c) ++ ")/" ++ toString (2 * c) ++ ")"

/-- The static catalog of 27 transform triples from calculus.py:
`(forward map, inverse template, redundant-when-c-is-1 flag)`. -/
def transforms (ev : NumEngine) : List ((MpReal → MpReal → MpReal) × String × Nat) :=
  [ (fun x c => x * c, "$y/$c", 0),
    (fun x c => x / c, "$c*$y", 1),
    (fun x c => c / x, "$c/$y", 0),
    (fun x c => (x * c) ^ 2, "sqrt($y)/$c", 0),
    (fun x c => (x / c) ^ 2, "$c*sqrt($y)", 1),
    (fun x c => (c / x) ^ 2, "$c/sqrt($y)", 0),
    (fun x c => c * x ^ 2, "sqrt($y)/sqrt($c)", 1),
    (fun x c => x ^ 2 / c, "sqrt($c)*sqrt($y)", 1),
    (fun x c => c / x ^ 2, "sqrt($c)/sqrt($y)", 1),
    (fun x c => ev.sqrt (x * c), "$y**2/$c", 0),
    (fun x c => ev.sqrt (x / c), "$c*$y**2", 1),
    (fun x c => ev.sqrt (c / x), "$c/$y**2", 0),
    (fun x c => c * ev.sqrt x, "$y**2/$c**2", 1),
    (fun x c => ev.sqrt x / c, "$c**2*$y**2", 1),
    (fun x c => c / ev.sqrt x, "$c**2/$y**2", 1),
    (fun x c => ev.exp (x * c), "log($y)/$c", 0),
    (fun x c => ev.exp (x / c), "$c*log($y)", 1),
    (fun x c => ev.exp (c / x), "$c/log($y)", 0),
    (fun x c => c * ev.exp x, "log($y/$c)", 1),
    (fun x c => ev.exp x / c, "log($c*$y)", 1),
    (fun x c => c / ev.exp x, "log($c/$y)", 0),
    (fun x c => ev.log (x * c), "exp($y)/$c", 0),
    (fun x c => ev.log (x / c), "$c*exp($y)", 1),
    (fun x c => ev.log (c / x), "$c/exp($y)", 0),
    (fun x c => c * ev.log x, "exp($y/$c)", 1),
    (fun x c => ev.log x / c, "exp($c*$y)", 1),
    (fun x c => c / ev.log x, "exp($c/$y)", 0) ]

/-- The `constants` argument of `identify`: either a mapping (name → value) or
a list of expression strings. -/
inductive ConstantsArg where
  | table (l : List (String × MpReal))
  | exprs (l : List String)

/-- Resolution of the `constants` argument into `(value, name)` pairs: a
mapping is converted entrywise (`[(mpf(v), name) for (name, v) in items]`),
while a list of strings passes each string to the dynamic expression evaluator
(`[(eval(p, mpmath.__dict__), p) for p in constants]`). -/
def resolveConstants (ev : String → MpReal) : ConstantsArg → List (MpReal × String)
  | .table l => l.map (fun p => (p.2, p.1))
  | .exprs l => l.map (fun p => (ev p, p))

/-- Python 2 equality between the integer `1` and a display-name string, as
performed by `1 not in [value for (name, value) in constants]`: the tuple
pattern `(name, value)` is reversed relative to the stored `(value, name)`
pairs, so the membership test compares the int `1` against name strings, which
in Python 2 is always `False` (without raising). -/
def pyIntEqName (_n : Int) (_s : String) : Bool := false

/-- The constant list `identify` actually searches: the resolved constants,
with `(1, '1')` prepended when the (name-comparing, hence always-false)
membership test fails to find `1`. -/
def identifyConstants (ev : String → MpReal) (arg : ConstantsArg) : List (MpReal × String) :=
  let cs := resolveConstants ev arg
  if cs.any (fun p => pyIntEqName 1 p.2) then cs else (MpReal.ofInt 1, "1") :: cs

/-- Result of an `identify` call: with `full=False` either a single formula
string or Python `None`; with `full=True` a list of formulas. -/
inductive IdResult where
  | single (s : String)
  | nomatch
  | list (l : List String)
deriving DecidableEq

/-- The formula strings carried by an `identify` result. -/
def resStrings : IdResult → List String
  | .single s => [s]
  | .nomatch => []
  | .list l => l

/-- The per-call context of the `identify` search loops. -/
structure IdCtx where
  ev : NumEngine
  prec : Nat
  x : MpReal
  constants : List (MpReal × String)
  weps : MpReal
  maxcoeff : Int
  quadratics : Bool
  full : Bool

/-- Template wrapping of a found sub-expression (source lines 1003–1006):
`'$y'` is replaced by the formula; for the constant named `'1'` a trailing
`'/$c'` is dropped, otherwise `'$c'` is replaced by the constant name. -/
def wrapTemplate (ftn cn s : String) : String :=
  if cn = "1" ∧ strContains ftn "/$c" then strReplace (strReplace ftn "$y" s) "/$c" ""
  else strReplace (strReplace ftn "$y" s) "$c" cn

/-- The quadratic branch of one transform × constant attempt of the `identify`
search (source lines 996–1001): with `quadratics` enabled, test `[1, t, t^2]`
for a 3-term relation; accept when the leading-power coefficient is nonzero
and all three coefficients are bounded by `maxcoeff`, formatting through
`quadraticstring` and the transform template. -/
def tryQuadratic (ctx : IdCtx) (ftn cn : String) (t : MpReal) :
    Except String (Option String) :=
  if ctx.quadratics then do
    let q? ← pslq ctx.prec [MpReal.ofInt 1, t, t ^ 2] (some ctx.weps)
    match q? with
    | some [aa, bb, cc] =>
      if cc ≠ 0 then
        if maxAbs [aa, bb, cc] ≤ ctx.maxcoeff then
          pure (some (wrapTemplate ftn cn (quadraticstring ctx.ev t aa bb cc)))
        else pure none
      else pure none
    | some _ => pure none
    | none => pure none
  else pure none

/-- One transform × constant attempt of the `identify` search: skip redundant
combinations and out-of-range transformed values, then try a linear relation
against the constants and (when that fails) the quadratic branch; a
successfully formatted formula is wrapped in the transform template. -/
def tryPair (ctx : IdCtx) (ft : MpReal → MpReal → MpReal) (ftn : String) (red : Nat)
    (c : MpReal) (cn : String) : Except String (Option String) :=
  if red ≠ 0 ∧ cn = "1" then .ok none
  else if (MpReal.ofInt (ctx.maxcoeff ^ 2)).qlt (ft ctx.x c).qabs ∨
      (ft ctx.x c).qabs.qlt ctx.weps then .ok none
  else do
    let r? ← pslq ctx.prec (ft ctx.x c :: ctx.constants.map Prod.fst) (some ctx.weps)
    match r? with
    | some r =>
      if maxAbs r ≤ ctx.maxcoeff ∧ r.headI ≠ 0 then
        pure (some (wrapTemplate ftn cn (pslqstring r ctx.constants)))
      else tryQuadratic ctx ftn cn (ft ctx.x c)
    | none => tryQuadratic ctx ftn cn (ft ctx.x c)

/-- The transform × constant search loop of `identify`, iterating over the
flattened pairs in source order, returning early (`.inl`) on the first hit
when `full` is off and accumulating all hits (`.inr`) otherwise. -/
def searchPairs (ctx : IdCtx) :
    List (((MpReal → MpReal → MpReal) × String × Nat) × (MpReal × String)) → List String →
    Except String (String ⊕ List String)
  | [], acc => .ok (.inr acc)
  | (tr, cc) :: rest, acc => do
    let s? ← tryPair ctx tr.1 tr.2.1 tr.2.2 cc.1 cc.2
    match s? with
    | some s => if ctx.full then searchPairs ctx rest (acc ++ [s]) else .ok (.inl s)
    | none => searchPairs ctx rest acc

/-- Python `sum(bool(findpoly(log(a)/log(i), 1)) for i in ilogs)` for one constant
`a`: count the small primes `2, 3, 5, 7` whose logarithm rationally relates to
`log a` via a degree-1 polynomial. -/
def countPoly (ctx : IdCtx) (a : MpReal) : Except String Nat :=
  ([2, 3, 5, 7] : List Int).foldlM (fun acc i => do
    let r ← findpoly ctx.prec (ctx.ev.log a / ctx.ev.log (MpReal.ofInt i)) 1
    pure (acc + match r with
      | some l => if l.isEmpty then 0 else 1
      | none => 0)) 0

/-- The `logs` list of the fallback multiplicative search: logarithms of the
small primes `2, 3, 5, 7` followed by logarithms of those catalog constants
not already expressible through a prime logarithm. -/
def buildLogs (ctx : IdCtx) : Except String (List (MpReal × String)) := do
  let kept ← ctx.constants.foldlM (fun (acc : List (MpReal × String)) p => do
    let cnt ← countPoly ctx p.1
    pure (if cnt = 0 then acc ++ [(ctx.ev.log p.1, p.2)] else acc)) []
  pure ([(ctx.ev.log (MpReal.ofInt 2), "2"), (ctx.ev.log (MpReal.ofInt 3), "3"),
         (ctx.ev.log (MpReal.ofInt 5), "5"), (ctx.ev.log (MpReal.ofInt 7), "7")] ++ kept)

/-- Are all collected solutions actual strings (no Python `None` present)?
Returns them in order if so. -/
def allSome : List (Option String) → Option (List String)
  | [] => some []
  | none :: _ => none
  | some s :: rest => (allSome rest).map (fun l => s :: l)

/-- The final `full=True` return of `identify`: `sorted(solutions, key=len)`.
Python computes `len` of every collected solution before sorting, raising
`TypeError` when the fallback appended a `None` solution; otherwise it sorts
stably by length (`List.mergeSort`). -/
def finishSearch (ctx : IdCtx) (solutions : List (Option String)) : Except String IdResult :=
  if ctx.full then
    match allSome solutions with
    | none => .error "TypeError: object of type NoneType has no len()"
    | some strs => .ok (.list (strs.mergeSort (fun a b => Nat.ble a.length b.length)))
  else .ok .nomatch

/-- The fallback direct multiplicative search of `identify` (source lines
1014–1026) followed by the final return: when `x ≠ 1`, test whether `log x` is
a rational combination of the `logs` list; a bounded relation with nonzero
leading coefficient is formatted by `prodstring` and appended (possibly as
Python `None`!) to the solutions. -/
def identifyFallback (ctx : IdCtx) (sols : List String) : Except String IdResult :=
  if ctx.x.qeq (MpReal.ofInt 1) then finishSearch ctx (sols.map some)
  else do
    let logs ← buildLogs ctx
    let r? ← pslq ctx.prec (ctx.ev.log ctx.x :: logs.map Prod.fst) (some ctx.weps)
    match r? with
    | some r =>
      if maxAbs r ≤ ctx.maxcoeff ∧ r.headI ≠ 0 then
        let solutions := sols.map some ++ [prodstring r logs]
        if ctx.full then finishSearch ctx solutions
        else pure (match solutions.headI with | some s => .single s | none => .nomatch)
      else finishSearch ctx (sols.map some)
    | none => finishSearch ctx (sols.map some)

/-- The body of `identify` for positive `x`: resolve tolerance and constants,
run the transform × constant search, then the fallback multiplicative search.
(`if tolerance:` is Python truthiness, so a zero tolerance also selects the
ambient default `eps ** 0.7`.) -/
def identifyPos (ev : NumEngine) (prec : Nat) (x : MpReal) (cons : ConstantsArg)
    (full : Bool) (maxcoeff : Int) (tol : Option MpReal) (quadratics : Bool) :
    Except String IdResult := do
  let weps := match tol with
    | some t0 => if t0.qeq (MpReal.ofInt 0) then ev.eps07 else t0
    | none => ev.eps07
  let constants := identifyConstants ev.evalConst cons
  let ctx : IdCtx := ⟨ev, prec, x, constants, weps, maxcoeff, quadratics, full⟩
  let pairs := (transforms ev).flatMap (fun tr => constants.map (fun cc => (tr, cc)))
  match ← searchPairs ctx pairs [] with
  | .inl s => pure (.single s)
  | .inr sols => identifyFallback ctx sols

/-- The negative-input wrapper of `identify` (source lines 956–963): a `None`
result passes through, a single formula or every member of a formula list is
wrapped as `-(...)`, and a raised exception propagates. -/
def negateResult : Except String IdResult → Except String IdResult
  | .error e => .error e
  | .ok .nomatch => .ok .nomatch
  | .ok (.single s) => .ok (.single ("-(" ++ s ++ ")"))
  | .ok (.list l) => .ok (.list (l.map (fun s => "-(" ++ s ++ ")")))

/-- The function `identify(x, constants=[], full=False, maxcoeff=1000, tolerance=None,
quadratics=True)` from calculus.py.  `x = 0` immediately yields `'0'`;
negative `x` recurses on `-x` with the same remaining arguments and negates
every resulting formula; positive `x` runs the search.  The `verbose` flag
only prints and is omitted. -/
def identify (ev : NumEngine) (prec : Nat) (x : MpReal) (cons : ConstantsArg)
    (full : Bool) (maxcoeff : Int) (tol : Option MpReal) (quadratics : Bool) :
    Except String IdResult :=
  if x.qeq (MpReal.ofInt 0) then .ok (if full then .list ["0"] else .single "0")
  else if h : x.qlt (MpReal.ofInt 0) then
    negateResult (identify ev prec (-x) cons full maxcoeff tol quadratics)
  else identifyPos ev prec x cons full maxcoeff tol quadratics
termination_by (if x.qlt (MpReal.ofInt 0) then 1 else 0 : Nat)
decreasing_by
  simp only [MpReal.qlt, MpReal.ofInt, Neg.neg, decide_eq_true_eq] at h ⊢
  have h1 : x.num < 0 := by omega
  have h2 : ¬ x.num.neg < 0 := by change ¬ -x.num < 0; omega
  simp [h1, h2]

/-- The loop-invariant signature of a `pslq` state: the fields the main loop
never modifies (dimension, padded precision, detection threshold). -/
def sig (st : PState) : Nat × Nat × Int := (st.n, st.prec, st.eps)

/-- The relation `LoopReach st st'` holds when the main loop, started at `st`, passes
through `st'` at the top of some iteration. -/
inductive LoopReach : PState → PState → Prop where
  | refl (st : PState) : LoopReach st st
  | step {st st' st'' : PState} :
      pslqStep st = .next st' → LoopReach st' st'' → LoopReach st st''

/-- A formula string produced from a relation vector whose largest absolute
coefficient is bounded by `mc`: either a template-wrapped `pslqstring` of a
linear relation, a template-wrapped `quadraticstring` of a 3-term quadratic
relation, or a `prodstring` of a multiplicative relation (the three
formula-producing sites of `identify`). -/
def BuiltFromBounded (ev : NumEngine) (mc : Int) (s : String) : Prop :=
  (∃ ftn cn r cs, maxAbs r ≤ mc ∧ s = wrapTemplate ftn cn (pslqstring r cs)) ∨
  (∃ ftn cn t a b c, maxAbs [a, b, c] ≤ mc ∧ s = wrapTemplate ftn cn (quadraticstring ev t a b c)) ∨
  (∃ r cs, maxAbs r ≤ mc ∧ prodstring r cs = some s)

/-- A degenerate `pslq` state with an identically-zero `H` matrix, on which
the pivot row is `1` and the 2×2 rotation norm vanishes. -/
def degenState : PState :=
  { n := 3, prec := 113, eps := 0,
    y := fun _ => 0, A := fun _ _ => 0, B := fun _ _ => 0, H := fun _ _ => 0 }

/-- A concrete numeric engine used to instantiate theorems about `identify` on
closed inputs. -/
def testEngine : NumEngine :=
  { sqrt := fun _ => MpReal.ofInt 0, exp := fun _ => MpReal.ofInt 0,
    log := fun _ => MpReal.ofInt 0, eps07 := ⟨1, 2 ^ 30⟩,
    evalConst := fun _ => MpReal.ofInt 0 }

/-! ### Theorems -/

/-- The rational value of the default threshold is `2 ^ (-target)`. -/
theorem pslqDefaultEps_toRat (prec n : Nat) :
    (pslqDefaultEps prec n).toRat = (2 : ℚ) ^ (-(pslqTarget prec n : Int)) := by
  simp only [pslqDefaultEps, MpReal.toRat, zpow_neg, zpow_natCast]
  push_cast
  ring

/-- C4 counterexample: on the empty input vector, `pslq` raises
(`assert n >= 1`) instead of returning the `None` negative result. -/
theorem pslq_empty_input_counterexample :
    pslq 53 ([] : List MpReal) none = .error "assertion failed: n >= 1" ∧
      pslq 53 ([] : List MpReal) none ≠ .ok none :=
  ⟨rfl, fun h => by simp [pslq] at h⟩

/-- C4 (amended): for every precision and threshold argument, `pslq` on the
empty input vector fails fast by raising an assertion error (it does not
return the `None` negative result). -/
theorem pslq_empty_input_raises (prec : Nat) (e : Option MpReal) :
    pslq prec ([] : List MpReal) e = .error "assertion failed: n >= 1" := rfl

/-- C3 counterexample: on the concrete single-element input `[1]` (every
single-element input behaves alike), the first main-loop iteration's pivot
scan ranges over the empty `range(1, 1)` and leaves `m = -1`, so the `H` row
swap of source line 748 reads the dict key `H[0, 1]` — `H[m+1, i]` at
`m = -1`, `i = 1` — which a dimension-1 run never writes: the real `pslq`
raises `KeyError` on this non-empty input instead of running its loop to the
100-iteration budget and returning `None`. -/
theorem pslq_main_loop_budget_counterexample :
    pivot (pslqInit 53 [MpReal.ofInt 1] none) = -1 ∧
      (0, 1) ∈ swapHKeys 1 (pivot (pslqInit 53 [MpReal.ofInt 1] none)) ∧
      ¬ dictKeyWritten 1 (0, 1) := by
  have hpivot : pivot (pslqInit 53 [MpReal.ofInt 1] none) = -1 := by decide
  exact ⟨hpivot, by rw [hpivot]; decide, by decide⟩

/-- C3 (amended): for an input of dimension at least 2 whose initialization
divisors are all nonzero — the normalizer `t` of line 713, the normalized
partial norms `s[1..n]` of lines 720/722 and the pre-reduction diagonal
divisors `H[j,j]`, `j = 1..n-1`, of line 727, exactly the conditions under
which the Python run reaches the main loop without a `ZeroDivisionError`
(and with `n ≥ 2` the pivot scan is non-empty, so `m ∈ [1, n-1]` and no
`KeyError` is possible) — `pslq` runs its main loop with an iteration budget
of exactly 100, and an exhausted budget yields the `None` negative result
rather than an error. -/
theorem pslq_main_loop_budget (prec : Nat) (x : List MpReal) (e : Option MpReal)
    (h1 : 2 ≤ x.length) (h2 : 53 ≤ prec)
    (ht : pslqT prec x ≠ 0)
    (hs : ∀ k ∈ pyrange 1 ((x.length : Int) + 1), pslqSv prec x k ≠ 0)
    (hh : ∀ j ∈ pyrange 1 (x.length : Int), pslqH0 prec x j j ≠ 0) :
    pslq prec x e = .ok (pslqLoop 100 (pslqInit prec x e)) ∧
      ∀ st, pslqLoop 0 st = none := by
  constructor
  · simp only [pslq, if_neg (by omega : ¬ x.length < 1), if_neg (by omega : ¬ prec < 53)]
  · intro st; rfl

set_option maxRecDepth 4000000 in
/-- C3 witness at the concrete input `[2, 4]` with precision 53, whose
initialization divisors are all nonzero. -/
theorem pslq_main_loop_budget_witness :
    (2 ≤ [MpReal.ofInt 2, MpReal.ofInt 4].length ∧ 53 ≤ 53 ∧
      pslqT 53 [MpReal.ofInt 2, MpReal.ofInt 4] ≠ 0 ∧
      (∀ k ∈ pyrange 1 (([MpReal.ofInt 2, MpReal.ofInt 4].length : Int) + 1),
        pslqSv 53 [MpReal.ofInt 2, MpReal.ofInt 4] k ≠ 0) ∧
      (∀ j ∈ pyrange 1 ([MpReal.ofInt 2, MpReal.ofInt 4].length : Int),
        pslqH0 53 [MpReal.ofInt 2, MpReal.ofInt 4] j j ≠ 0)) ∧
      (pslq 53 [MpReal.ofInt 2, MpReal.ofInt 4] none =
          .ok (pslqLoop 100 (pslqInit 53 [MpReal.ofInt 2, MpReal.ofInt 4] none)) ∧
        ∀ st, pslqLoop 0 st = none) :=
  ⟨⟨by decide, by decide, by decide, by decide, by decide⟩,
    pslq_main_loop_budget 53 [MpReal.ofInt 2, MpReal.ofInt 4] none
      (by decide) (by decide) (by decide) (by decide) (by decide)⟩

/-- C6 counterexample: with caller precision 53 and a single input value
(`n = 1`), the code's `target` is `int(53 * 0.75) = 39` (because
`53 // max(2, 1) = 26 < 30`), so the default threshold is `2^-39`; the claim's
`target = prec div n = 53` (already above any minimum floor, so flooring does
not alter it) would give `2^-53`. -/
theorem pslq_default_eps_counterexample :
    pslqTarget 53 1 = 39 ∧ 53 / 1 = 53 ∧
      (pslqDefaultEps 53 1).toRat = (2 : ℚ) ^ (-(39 : Int)) ∧
      (pslqDefaultEps 53 1).toRat ≠ (2 : ℚ) ^ (-(53 : Int)) := by
  have ht : pslqTarget 53 1 = 39 := by decide
  refine ⟨ht, by norm_num, ?_, ?_⟩
  · rw [pslqDefaultEps_toRat, ht]; norm_num
  · rw [pslqDefaultEps_toRat, ht]; norm_num

/-- C6 (amended): when no `eps` is supplied, `pslq` uses the default detection
threshold `2^-target` where `target = prec // max(2, n)`, replaced by
`int(prec * 0.75)` when that quotient falls below 30. -/
theorem pslq_default_eps_formula (prec : Nat) (x : List MpReal) :
    pslq prec x none = pslq prec x (some (pslqDefaultEps prec x.length)) ∧
      (pslqDefaultEps prec x.length).toRat =
        (2 : ℚ) ^ (-(pslqTarget prec x.length : Int)) :=
  ⟨rfl, pslqDefaultEps_toRat prec x.length⟩

/-- C5 counterexample: the resolution of a list-style `constants` argument
depends on the dynamic expression evaluator (Python `eval`), so it is not a
pure name → value table lookup: two engines that evaluate the same string
differently produce different constant lists. -/
theorem identify_eval_dependence_counterexample :
    resolveConstants (fun _ => MpReal.ofInt 2) (.exprs ["pi"]) ≠
      resolveConstants (fun _ => MpReal.ofInt 3) (.exprs ["pi"]) := by decide

/-- C5 (amended): a mapping-style `constants` argument is resolved by a pure
entrywise table conversion that never consults the expression evaluator, but a
list-style argument passes every caller-supplied string to the dynamic
expression evaluator (`eval(p, mpmath.__dict__)`). -/
theorem identify_constant_resolution :
    (∀ (ev1 ev2 : String → MpReal) (d : List (String × MpReal)),
        resolveConstants ev1 (.table d) = resolveConstants ev2 (.table d)) ∧
      (∀ (ev : String → MpReal) (l : List String),
        resolveConstants ev (.exprs l) = l.map (fun p => (ev p, p))) :=
  ⟨fun _ _ _ => rfl, fun _ _ => rfl⟩

/-- C9: for every evaluator and every `constants` argument, the constant list
`identify` actually searches has `(1, '1')` at its front (the source's
membership test compares the int `1` against display-name strings, so the
injection always fires, in particular whenever the value 1 is absent). -/
theorem identify_searches_constant_one (ev : String → MpReal) (arg : ConstantsArg) :
    identifyConstants ev arg = (MpReal.ofInt 1, "1") :: resolveConstants ev arg ∧
      (MpReal.ofInt 1, "1") ∈ identifyConstants ev arg := by
  have h : identifyConstants ev arg = (MpReal.ofInt 1, "1") :: resolveConstants ev arg := by
    simp [identifyConstants, pyIntEqName]
  exact ⟨h, h ▸ List.mem_cons_self _ _⟩

/-- C7: if, at the top of a main-loop iteration, the pivot `m` satisfies
`m ≤ n - 2` and the 2×2 rotation norm computed after the swap is zero, the
run terminates immediately with the `None` negative result (for any remaining
iteration budget). -/
theorem pslq_zero_rotation_norm_returns_none (st : PState) (fuel : Nat)
    (h1 : pivot st ≤ (st.n : Int) - 2)
    (h2 : rotNorm (swapAll st (pivot st)) (pivot st) = 0) :
    pslqLoop (fuel + 1) st = none := by
  have hstep : pslqStep st = StepRes.abort := by
    unfold pslqStep
    rw [if_pos h1, if_pos h2]
  have h3 : pslqLoop (fuel + 1) st =
      (match pslqStep st with
       | .found v => some v
       | .abort => none
       | .next st' => pslqLoop fuel st') := rfl
  rw [h3, hstep]

set_option maxRecDepth 2000000 in
/-- C7 witness at a concrete degenerate state. -/
theorem pslq_zero_rotation_norm_returns_none_witness :
    (pivot degenState ≤ (degenState.n : Int) - 2 ∧
        rotNorm (swapAll degenState (pivot degenState)) (pivot degenState) = 0) ∧
      pslqLoop 1 degenState = none :=
  ⟨⟨by decide, by decide⟩,
    pslq_zero_rotation_norm_returns_none degenState 0 (by decide) (by decide)⟩

/-- The `maxAbs` fold dominates its accumulator. -/
theorem le_foldl_max (l : List Int) (acc : Int) :
    acc ≤ l.foldl (fun a b => max a |b|) acc := by
  induction l generalizing acc with
  | nil => simp
  | cons b t ih =>
    simp only [List.foldl_cons]
    exact le_trans (le_max_left _ _) (ih (max acc |b|))

/-- Every member's absolute value is dominated by the `maxAbs` fold. -/
theorem mem_le_foldl_max {v : Int} :
    ∀ (l : List Int) (acc : Int), v ∈ l → |v| ≤ l.foldl (fun a b => max a |b|) acc := by
  intro l
  induction l with
  | nil => intro acc h; cases h
  | cons b t ih =>
    intro acc h
    simp only [List.foldl_cons]
    rcases List.mem_cons.mp h with h1 | h2
    · subst h1; exact le_trans (le_max_right acc |v|) (le_foldl_max t _)
    · exact ih _ h2

/-- The fold `maxAbs` bounds every member. -/
theorem le_maxAbs_of_mem {l : List Int} {v : Int} (h : v ∈ l) : |v| ≤ maxAbs l :=
  mem_le_foldl_max l 0 h

/-- What a successful termination check yields: a coordinate `i` in range with
`|y[i]| < eps`, whose extracted candidate is the returned vector and passes
the `10^6` coefficient bound. -/
theorem termCheck_eq_some {st : PState} {v : List Int} (h : termCheck st = some v) :
    ∃ i, i ∈ pyrange 1 ((st.n : Int) + 1) ∧ |st.y i| < st.eps ∧ v = extractVec st i ∧
      maxAbs v < 10 ^ 6 := by
  unfold termCheck at h
  obtain ⟨i, hmem, hf⟩ := List.exists_of_findSome?_eq_some h
  dsimp only at hf
  split_ifs at hf with h1 h2
  have hv := Option.some.inj hf
  exact ⟨i, hmem, h1, hv.symm, hv ▸ h2⟩

theorem reduceTerm_sig (st : PState) (i j : Int) : sig (reduceTerm st i j) = sig st := rfl

theorem swapAll_sig (st : PState) (m : Int) : sig (swapAll st m) = sig st := rfl

theorem rotate_sig (st : PState) (m t0 : Int) : sig (rotate st m t0) = sig st := rfl

theorem reduceRowLoop_sig (i : Int) :
    ∀ (l : List Int) (st : PState), sig (reduceRowLoop i l st) = sig st := by
  intro l
  induction l with
  | nil => intro st; rfl
  | cons j rest ih =>
    intro st
    unfold reduceRowLoop
    split
    · rfl
    · rw [ih (reduceTerm st i j), reduceTerm_sig]

/-- A fold whose step preserves the signature preserves the signature. -/
theorem foldl_sig (f : PState → Int → PState) (hf : ∀ s a, sig (f s a) = sig s) :
    ∀ (l : List Int) (st : PState), sig (List.foldl f st l) = sig st := by
  intro l
  induction l with
  | nil => intro st; rfl
  | cons a rest ih => intro st; rw [List.foldl_cons, ih, hf]

theorem reduceAfterSwap_sig (st : PState) (m : Int) : sig (reduceAfterSwap st m) = sig st :=
  foldl_sig _ (fun s i => reduceRowLoop_sig i _ s) _ st

theorem prereduce_sig (st : PState) : sig (prereduce st) = sig st :=
  foldl_sig _ (fun s i => foldl_sig _ (fun s2 j => reduceTerm_sig s2 i j) _ s) _ st

/-- The signature of the initial state: dimension `n = len(x)`, padded
precision `prec + 60`, threshold `pslqEpsF`. -/
theorem pslqInit_sig (prec0 : Nat) (xq : List MpReal) (e : Option MpReal) :
    sig (pslqInit prec0 xq e) = (xq.length, prec0 + 60, pslqEpsF prec0 xq.length e) := by
  simp only [pslqInit]
  rw [prereduce_sig]
  rfl

/-- A `.found` step result arises only from a successful termination check on
the iteration's post-reduction state (which shares the loop signature). -/
theorem pslqStep_found {st : PState} {v : List Int} (h : pslqStep st = .found v) :
    ∃ st3, sig st3 = sig st ∧ termCheck st3 = some v := by
  unfold pslqStep at h
  split at h
  · split at h
    · cases h
    · split at h
      · rename_i w heq
        injection h with h'
        subst h'
        exact ⟨_, by rw [reduceAfterSwap_sig, rotate_sig, swapAll_sig], heq⟩
      · cases h
  · split at h
    · rename_i w heq
      injection h with h'
      subst h'
      exact ⟨_, by rw [reduceAfterSwap_sig, swapAll_sig], heq⟩
    · cases h

set_option maxHeartbeats 2000000 in
/-- A `.next` step preserves the loop signature. -/
theorem pslqStep_next {st st' : PState} (h : pslqStep st = .next st') : sig st' = sig st := by
  unfold pslqStep at h
  split at h
  · split at h
    · cases h
    · split at h
      · cases h
      · injection h with h'
        rw [← h', reduceAfterSwap_sig, rotate_sig, swapAll_sig]
  · split at h
    · cases h
    · injection h with h'
      rw [← h', reduceAfterSwap_sig, swapAll_sig]

/-- If the main loop returns a vector, some reached iteration's step returned
it via a successful termination check on a state of the same signature. -/
theorem pslqLoop_reaches :
    ∀ (fuel : Nat) {st : PState} {v : List Int}, pslqLoop fuel st = some v →
      ∃ st0 st3, LoopReach st st0 ∧ pslqStep st0 = .found v ∧
        sig st3 = sig st ∧ termCheck st3 = some v := by
  intro fuel
  induction fuel with
  | zero => intro st v h; exact absurd h (by simp [pslqLoop])
  | succ fuel ih =>
    intro st v h
    have h3 : pslqLoop (fuel + 1) st =
        (match pslqStep st with
         | .found w => some w
         | .abort => none
         | .next st' => pslqLoop fuel st') := rfl
    rw [h3] at h
    cases hstep : pslqStep st with
    | found w =>
      rw [hstep] at h
      have hw : w = v := by injection h
      subst hw
      obtain ⟨st3, hsig, hterm⟩ := pslqStep_found hstep
      exact ⟨st, st3, .refl st, hstep, hsig, hterm⟩
    | abort => rw [hstep] at h; exact absurd h (by simp)
    | next st' =>
      rw [hstep] at h
      obtain ⟨st0, st3, hreach, hfound, hsig, hterm⟩ := ih h
      exact ⟨st0, st3, .step hstep hreach, hfound,
        hsig.trans (pslqStep_next hstep), hterm⟩

/-- C1: whenever `pslq` returns a coefficient vector, the return happened at a
main-loop termination check: some iteration reached from the initial state
produced it, at a state (sharing the run's `n`, padded precision and `eps`)
with a coordinate `i` satisfying `|y[i]| < eps`, the vector is the rounded
column `i` of `B`, and every coefficient is below `10^6`. -/
theorem pslq_accepts_only_checked_candidates (prec : Nat) (x : List MpReal)
    (e : Option MpReal) (vec : List Int)
    (h : pslq prec x e = .ok (some vec)) :
    ∃ st0 st3 i,
      LoopReach (pslqInit prec x e) st0 ∧ pslqStep st0 = .found vec ∧
      st3.n = x.length ∧ st3.prec = prec + 60 ∧ st3.eps = pslqEpsF prec x.length e ∧
      termCheck st3 = some vec ∧
      i ∈ pyrange 1 ((st3.n : Int) + 1) ∧ |st3.y i| < st3.eps ∧
      vec = extractVec st3 i ∧ maxAbs vec < 10 ^ 6 ∧
      ∀ v ∈ vec, |v| < 10 ^ 6 := by
  unfold pslq at h
  split at h
  · exact absurd h (by simp)
  split at h
  · exact absurd h (by simp)
  have hl : pslqLoop 100 (pslqInit prec x e) = some vec := by injection h
  obtain ⟨st0, st3, hreach, hfound, hsig, hterm⟩ := pslqLoop_reaches 100 hl
  have hsig3 : (st3.n, st3.prec, st3.eps) = (x.length, prec + 60, pslqEpsF prec x.length e) := by
    rw [show (st3.n, st3.prec, st3.eps) = sig st3 from rfl, hsig, pslqInit_sig]
  obtain ⟨i, hmem, hlt, hveq, hmax⟩ := termCheck_eq_some hterm
  refine ⟨st0, st3, i, hreach, hfound, ?_, ?_, ?_, hterm, hmem, hlt, hveq, hmax, ?_⟩
  · exact congrArg Prod.fst hsig3
  · exact congrArg Prod.fst (congrArg Prod.snd hsig3)
  · exact congrArg Prod.snd (congrArg Prod.snd hsig3)
  · exact fun v hv => lt_of_le_of_lt (le_maxAbs_of_mem hv) hmax

set_option maxRecDepth 4000000 in
/-- C1 witness: `pslq` on `[2, 4]` at precision 53 returns `[-2, 1]`, and the
acceptance conditions hold for it. -/
theorem pslq_accepts_only_checked_candidates_witness :
    pslq 53 [MpReal.ofInt 2, MpReal.ofInt 4] none = .ok (some [-2, 1]) ∧
      (∃ st0 st3 i,
        LoopReach (pslqInit 53 [MpReal.ofInt 2, MpReal.ofInt 4] none) st0 ∧
        pslqStep st0 = .found [-2, 1] ∧
        st3.n = [MpReal.ofInt 2, MpReal.ofInt 4].length ∧ st3.prec = 53 + 60 ∧
        st3.eps = pslqEpsF 53 [MpReal.ofInt 2, MpReal.ofInt 4].length none ∧
        termCheck st3 = some [-2, 1] ∧
        i ∈ pyrange 1 ((st3.n : Int) + 1) ∧ |st3.y i| < st3.eps ∧
        ([-2, 1] : List Int) = extractVec st3 i ∧ maxAbs [-2, 1] < 10 ^ 6 ∧
        ∀ v ∈ ([-2, 1] : List Int), |v| < 10 ^ 6) :=
  ⟨by rfl,
    pslq_accepts_only_checked_candidates 53 [MpReal.ofInt 2, MpReal.ofInt 4] none [-2, 1]
      (by rfl)⟩

/-- A negative value is nonzero and its negation is not negative. -/
theorem qlt_zero_facts {x : MpReal} (hx : x.qlt (MpReal.ofInt 0) = true) :
    x.qeq (MpReal.ofInt 0) = false ∧
      (-x).qeq (MpReal.ofInt 0) = false ∧ (-x).qlt (MpReal.ofInt 0) = false := by
  simp only [MpReal.qlt, MpReal.ofInt, decide_eq_true_eq] at hx
  have hx' : x.num < 0 := by omega
  have hneg : (-x).num = -x.num ∧ (-x).den = x.den := ⟨rfl, rfl⟩
  refine ⟨?_, ?_, ?_⟩
  · simp only [MpReal.qeq, MpReal.ofInt]
    simp only [beq_eq_false_iff_ne, ne_eq]
    omega
  · simp only [MpReal.qeq, MpReal.ofInt, hneg.1, hneg.2]
    simp only [beq_eq_false_iff_ne, ne_eq]
    omega
  · simp only [MpReal.qlt, MpReal.ofInt, hneg.1, hneg.2, decide_eq_false_iff_not]
    omega

/-- C8: for every negative input, `identify` computes its result by recursing
on the absolute value with the same remaining arguments and wrapping it
through `negateResult` (each found formula becomes `-(...)`; a `None` result
passes through unchanged). -/
theorem identify_negative_recursion (ev : NumEngine) (prec : Nat) (x : MpReal)
    (cons : ConstantsArg) (full : Bool) (mc : Int) (tol : Option MpReal) (quad : Bool)
    (hx : x.qlt (MpReal.ofInt 0) = true) :
    identify ev prec x cons full mc tol quad =
      negateResult (identify ev prec (-x) cons full mc tol quad) := by
  obtain ⟨hne, -, -⟩ := qlt_zero_facts hx
  rw [identify]
  rw [if_neg (by simp [hne]), dif_pos hx]

/-- C8 witness at the concrete input `-1`. -/
theorem identify_negative_recursion_witness :
    MpReal.qlt ⟨-1, 1⟩ (MpReal.ofInt 0) = true ∧
      identify testEngine 53 ⟨-1, 1⟩ (ConstantsArg.exprs []) false 1000 none true =
        negateResult
          (identify testEngine 53 (-(⟨-1, 1⟩ : MpReal)) (ConstantsArg.exprs []) false 1000
            none true) :=
  ⟨by decide,
    identify_negative_recursion testEngine 53 ⟨-1, 1⟩ (ConstantsArg.exprs []) false 1000 none
      true (by decide)⟩

/-- With `full` set, the transform × constant search never returns early. -/
theorem searchPairs_not_inl (ctx : IdCtx) (hfull : ctx.full = true) :
    ∀ (pairs : List (((MpReal → MpReal → MpReal) × String × Nat) × (MpReal × String)))
      (acc : List String) (s : String), searchPairs ctx pairs acc ≠ .ok (.inl s) := by
  intro pairs
  induction pairs with
  | nil => intro acc s h; exact absurd h (by simp [searchPairs])
  | cons pc rest ih =>
    intro acc s h
    unfold searchPairs at h
    cases htp : tryPair ctx pc.1.1 pc.1.2.1 pc.1.2.2 pc.2.1 pc.2.2 with
    | error e => rw [htp] at h; exact absurd h (by simp [Bind.bind, Except.bind])
    | ok s? =>
      rw [htp] at h
      cases s? with
      | some s' =>
        simp only [Bind.bind, Except.bind, hfull, if_true] at h
        exact ih _ _ h
      | none =>
        simp only [Bind.bind, Except.bind] at h
        exact ih _ _ h

/-- With `full` set, a successful `finishSearch` returns a length-sorted list. -/
theorem finishSearch_full_sorted (ctx : IdCtx) (hfull : ctx.full = true)
    {sols : List (Option String)} {res : IdResult} (h : finishSearch ctx sols = .ok res) :
    ∃ l, res = .list l ∧ l.Pairwise (fun a b : String => a.length ≤ b.length) := by
  unfold finishSearch at h
  rw [hfull] at h
  simp only [if_true] at h
  cases hm : allSome sols with
  | none => rw [hm] at h; cases h
  | some strs =>
    rw [hm] at h
    injection h with h'
    refine ⟨strs.mergeSort (fun a b => Nat.ble a.length b.length), h'.symm, ?_⟩
    have hs := @List.sorted_mergeSort String
      (fun a b : String => Nat.ble a.length b.length)
      (fun a b c hab hbc => by simp only [Nat.ble_eq] at *; omega)
      (fun a b => by simp only [Bool.or_eq_true, Nat.ble_eq]; omega) strs
    exact hs.imp (fun hab => by simpa [Nat.ble_eq] using hab)

/-- With `full` set, a successful fallback phase returns a length-sorted list. -/
theorem identifyFallback_full_sorted (ctx : IdCtx) (hfull : ctx.full = true)
    {sols : List String} {res : IdResult} (h : identifyFallback ctx sols = .ok res) :
    ∃ l, res = .list l ∧ l.Pairwise (fun a b : String => a.length ≤ b.length) := by
  unfold identifyFallback at h
  rw [hfull] at h
  simp only [eq_self_iff_true, if_true] at h
  split at h
  · exact finishSearch_full_sorted ctx hfull h
  · cases hb : buildLogs ctx with
    | error e => rw [hb] at h; exact absurd h (by simp [Bind.bind, Except.bind])
    | ok logs =>
      rw [hb] at h
      simp only [Bind.bind, Except.bind] at h
      cases hp : pslq ctx.prec (ctx.ev.log ctx.x :: logs.map Prod.fst) (some ctx.weps) with
      | error e => rw [hp] at h; exact absurd h (by simp [Bind.bind, Except.bind])
      | ok r? =>
        rw [hp] at h
        simp only [Bind.bind, Except.bind] at h
        cases r? with
        | none => exact finishSearch_full_sorted ctx hfull h
        | some r =>
          repeat' split at h
          all_goals exact finishSearch_full_sorted ctx hfull h

/-- With `full` set, a successful `identifyPos` returns a length-sorted list. -/
theorem identifyPos_full_sorted (ev : NumEngine) (prec : Nat) (x : MpReal)
    (cons : ConstantsArg) (mc : Int) (tol : Option MpReal) (quad : Bool) {res : IdResult}
    (h : identifyPos ev prec x cons true mc tol quad = .ok res) :
    ∃ l, res = .list l ∧ l.Pairwise (fun a b : String => a.length ≤ b.length) := by
  unfold identifyPos at h
  simp only [Bind.bind, Except.bind] at h
  split at h
  · cases h
  · rename_i v hv
    split at h
    · exact absurd hv (searchPairs_not_inl _ rfl _ _ _)
    · exact identifyFallback_full_sorted _ rfl h

/-- The length of a negated formula. -/
theorem neg_wrap_length (s : String) : ("-(" ++ s ++ ")").length = s.length + 3 := by
  rw [String.length_append, String.length_append]
  have h1 : "-(".length = 2 := rfl
  have h2 : ")".length = 1 := rfl
  omega

/-- C10: every `identify` call with `full=True` that returns normally returns
a list of formula strings sorted by nondecreasing string length (possibly the
empty list — never the `None` result). -/
theorem identify_full_returns_sorted_list (ev : NumEngine) (prec : Nat) (x : MpReal)
    (cons : ConstantsArg) (mc : Int) (tol : Option MpReal) (quad : Bool) {res : IdResult}
    (h : identify ev prec x cons true mc tol quad = .ok res) :
    ∃ l, res = .list l ∧ l.Pairwise (fun a b : String => a.length ≤ b.length) := by
  rw [identify] at h
  split at h
  · refine ⟨["0"], ?_, by simp⟩
    have h' := Except.ok.inj h
    simp only [if_true] at h'
    exact h'.symm
  · split at h
    · rename_i hneg
      obtain ⟨-, h1, h2⟩ := qlt_zero_facts hneg
      rw [identify, if_neg (by simp [h1]), dif_neg (by simp [h2])] at h
      cases hi : identifyPos ev prec (-x) cons true mc tol quad with
      | error e => rw [hi] at h; cases h
      | ok r' =>
        obtain ⟨l', hl', hp'⟩ := identifyPos_full_sorted ev prec (-x) cons mc tol quad hi
        rw [hi, hl'] at h
        simp only [negateResult] at h
        refine ⟨l'.map (fun s => "-(" ++ s ++ ")"), (Except.ok.inj h).symm, ?_⟩
        exact hp'.map _ (fun a b hab => by
          simp only [neg_wrap_length]
          omega)
    · exact identifyPos_full_sorted ev prec x cons mc tol quad h

/-- A positive value is nonzero and not negative. -/
theorem qlt_pos_facts {x : MpReal} (hx : (MpReal.ofInt 0).qlt x = true) :
    x.qeq (MpReal.ofInt 0) = false ∧ x.qlt (MpReal.ofInt 0) = false := by
  simp only [MpReal.qlt, MpReal.ofInt, decide_eq_true_eq] at hx
  constructor
  · simp only [MpReal.qeq, MpReal.ofInt, beq_eq_false_iff_ne, ne_eq]
    omega
  · simp only [MpReal.qlt, MpReal.ofInt, decide_eq_false_iff_not]
    omega

/-- Membership transfer through `allSome`. -/
theorem allSome_mem :
    ∀ {solutions : List (Option String)} {strs : List String},
      allSome solutions = some strs → ∀ s ∈ strs, some s ∈ solutions := by
  intro solutions
  induction solutions with
  | nil =>
    intro strs h s hs
    have h' : some ([] : List String) = some strs := h
    injection h' with h''
    subst h''
    cases hs
  | cons a rest ih =>
    intro strs h s hs
    cases a with
    | none => rw [show allSome (none :: rest) = none from rfl] at h; cases h
    | some b =>
      rw [show allSome (some b :: rest) = (allSome rest).map (fun l => b :: l) from rfl] at h
      cases hr : allSome rest with
      | none => rw [hr] at h; cases h
      | some bs =>
        rw [hr] at h
        have h2 : some (b :: bs) = some strs := h
        injection h2 with h'
        subst h'
        rcases List.mem_cons.mp hs with h1 | h2
        · subst h1; exact List.mem_cons_self _ _
        · exact List.mem_cons_of_mem _ (ih hr s h2)

/-- A formula produced by the quadratic branch comes from a bounded 3-term
relation. -/
theorem tryQuadratic_built (ctx : IdCtx) (ftn cn : String) (t : MpReal) {s : String}
    (h : tryQuadratic ctx ftn cn t = .ok (some s)) :
    BuiltFromBounded ctx.ev ctx.maxcoeff s := by
  unfold tryQuadratic at h
  split at h
  · cases hq : pslq ctx.prec [MpReal.ofInt 1, t, t ^ 2] (some ctx.weps) with
    | error e => rw [hq] at h; exact absurd h (by simp [Bind.bind, Except.bind])
    | ok q? =>
      rw [hq] at h
      simp only [Bind.bind, Except.bind] at h
      split at h
      · rename_i aa bb cc
        split at h
        · split at h
          · rename_i hcc hbound
            injection h with h'
            injection h' with h''
            exact Or.inr (Or.inl ⟨ftn, cn, t, aa, bb, cc, hbound, h''.symm⟩)
          · cases h
        · cases h
      · cases h
      · cases h
  · cases h

/-- A formula produced by one transform × constant attempt comes from a
bounded relation. -/
theorem tryPair_built (ctx : IdCtx) (ft : MpReal → MpReal → MpReal) (ftn : String)
    (red : Nat) (c : MpReal) (cn : String) {s : String}
    (h : tryPair ctx ft ftn red c cn = .ok (some s)) :
    BuiltFromBounded ctx.ev ctx.maxcoeff s := by
  unfold tryPair at h
  split at h
  · cases h
  · split at h
    · cases h
    · cases hr : pslq ctx.prec (ft ctx.x c :: ctx.constants.map Prod.fst) (some ctx.weps) with
      | error e => rw [hr] at h; exact absurd h (by simp [Bind.bind, Except.bind])
      | ok r? =>
        rw [hr] at h
        simp only [Bind.bind, Except.bind] at h
        split at h
        · rename_i r
          split at h
          · rename_i hguard
            injection h with h'
            injection h' with h''
            exact Or.inl ⟨ftn, cn, r, ctx.constants, hguard.1, h''.symm⟩
          · exact tryQuadratic_built ctx ftn cn _ h
        · exact tryQuadratic_built ctx ftn cn _ h

/-- Every outcome of the transform × constant search loop is built from
bounded relations (given the invariant for the accumulator). -/
theorem searchPairs_built (ctx : IdCtx) :
    ∀ (pairs : List (((MpReal → MpReal → MpReal) × String × Nat) × (MpReal × String)))
      (acc : List String),
      (∀ s ∈ acc, BuiltFromBounded ctx.ev ctx.maxcoeff s) →
      ∀ out, searchPairs ctx pairs acc = .ok out →
        (∀ s, out = .inl s → BuiltFromBounded ctx.ev ctx.maxcoeff s) ∧
        (∀ l, out = .inr l → ∀ s ∈ l, BuiltFromBounded ctx.ev ctx.maxcoeff s) := by
  intro pairs
  induction pairs with
  | nil =>
    intro acc hacc out h
    unfold searchPairs at h
    have hout : Sum.inr acc = out := Except.ok.inj h
    constructor
    · intro s hs; rw [← hout] at hs; cases hs
    · intro l hl
      rw [← hout] at hl
      injection hl with hl'
      subst hl'
      exact hacc
  | cons pc rest ih =>
    intro acc hacc out h
    unfold searchPairs at h
    cases htp : tryPair ctx pc.1.1 pc.1.2.1 pc.1.2.2 pc.2.1 pc.2.2 with
    | error e => rw [htp] at h; exact absurd h (by simp [Bind.bind, Except.bind])
    | ok s? =>
      rw [htp] at h
      simp only [Bind.bind, Except.bind] at h
      split at h
      · rename_i s'
        have hb := tryPair_built ctx pc.1.1 pc.1.2.1 pc.1.2.2 pc.2.1 pc.2.2 htp
        split at h
        · refine ih (acc ++ [s']) ?_ out h
          intro s hs
          rcases List.mem_append.mp hs with h1 | h2
          · exact hacc s h1
          · rw [List.mem_singleton.mp h2]; exact hb
        · have hout : Sum.inl s' = out := Except.ok.inj h
          constructor
          · intro s hs
            rw [← hout] at hs
            injection hs with hs'
            subst hs'
            exact hb
          · intro l hl; rw [← hout] at hl; cases hl
      · exact ih acc hacc out h

/-- Every string in a successful `finishSearch` result satisfies the
accumulated invariant. -/
theorem finishSearch_built (ctx : IdCtx) {solutions : List (Option String)} {res : IdResult}
    (hsol : ∀ s, some s ∈ solutions → BuiltFromBounded ctx.ev ctx.maxcoeff s)
    (h : finishSearch ctx solutions = .ok res) :
    ∀ s ∈ resStrings res, BuiltFromBounded ctx.ev ctx.maxcoeff s := by
  unfold finishSearch at h
  split at h
  · cases hm : allSome solutions with
    | none => rw [hm] at h; cases h
    | some strs =>
      rw [hm] at h
      injection h with h'
      intro s hs
      rw [← h'] at hs
      simp only [resStrings, List.mem_mergeSort] at hs
      exact hsol s (allSome_mem hm s hs)
  · have : IdResult.nomatch = res := Except.ok.inj h
    intro s hs
    rw [← this] at hs
    cases hs

/-- Every formula string in a successful fallback-phase result is built from a
bounded relation. -/
theorem identifyFallback_built (ctx : IdCtx) {sols : List String} {res : IdResult}
    (hacc : ∀ s ∈ sols, BuiltFromBounded ctx.ev ctx.maxcoeff s)
    (h : identifyFallback ctx sols = .ok res) :
    ∀ s ∈ resStrings res, BuiltFromBounded ctx.ev ctx.maxcoeff s := by
  have hmap : ∀ s, some s ∈ sols.map some → BuiltFromBounded ctx.ev ctx.maxcoeff s := by
    intro s hs
    obtain ⟨s', hs', he⟩ := List.mem_map.mp hs
    injection he with he'
    subst he'
    exact hacc s' hs'
  unfold identifyFallback at h
  split at h
  · exact finishSearch_built ctx hmap h
  · cases hb : buildLogs ctx with
    | error e => rw [hb] at h; exact absurd h (by simp [Bind.bind, Except.bind])
    | ok logs =>
      rw [hb] at h
      simp only [Bind.bind, Except.bind] at h
      cases hp : pslq ctx.prec (ctx.ev.log ctx.x :: logs.map Prod.fst) (some ctx.weps) with
      | error e => rw [hp] at h; exact absurd h (by simp [Bind.bind, Except.bind])
      | ok r? =>
        rw [hp] at h
        simp only [Bind.bind, Except.bind] at h
        split at h
        · rename_i r
          split at h
          · rename_i hguard
            have hmap2 : ∀ s, some s ∈ sols.map some ++ [prodstring r logs] →
                BuiltFromBounded ctx.ev ctx.maxcoeff s := by
              intro s hs
              rcases List.mem_append.mp hs with h1 | h2
              · exact hmap s h1
              · exact Or.inr (Or.inr ⟨r, logs, hguard.1, (List.mem_singleton.mp h2).symm⟩)
            split at h
            · exact finishSearch_built ctx hmap2 h
            · have hres : _ = res := Except.ok.inj h
              intro s hs
              rw [← hres] at hs
              cases sols with
              | nil =>
                cases hps : prodstring r logs with
                | some s0 =>
                  simp only [List.map_nil, List.nil_append, List.headI, hps, resStrings,
                    List.mem_singleton] at hs
                  rw [hs]
                  exact Or.inr (Or.inr ⟨r, logs, hguard.1, hps⟩)
                | none =>
                  simp only [List.map_nil, List.nil_append, List.headI, hps, resStrings] at hs
                  cases hs
              | cons s0 rest =>
                simp only [List.map_cons, List.cons_append, List.headI, resStrings,
                  List.mem_singleton] at hs
                rw [hs]
                exact hacc s0 (List.mem_cons_self _ _)
          · exact finishSearch_built ctx hmap h
        · exact finishSearch_built ctx hmap h

/-- C10 witness at the concrete input `0`. -/
theorem identify_full_returns_sorted_list_witness :
    identify testEngine 53 (MpReal.ofInt 0) (ConstantsArg.exprs []) true 1000 none true =
        .ok (.list ["0"]) ∧
      ∃ l, IdResult.list ["0"] = IdResult.list l ∧
        l.Pairwise (fun a b : String => a.length ≤ b.length) :=
  ⟨by rw [identify]; rfl,
    identify_full_returns_sorted_list testEngine 53 (MpReal.ofInt 0) (ConstantsArg.exprs [])
      1000 none true (by rw [identify]; rfl)⟩

/-- Every formula string in a successful `identifyPos` result is built from a
bounded relation. -/
theorem identifyPos_built (ev : NumEngine) (prec : Nat) (x : MpReal) (cons : ConstantsArg)
    (full : Bool) (mc : Int) (tol : Option MpReal) (quad : Bool) {res : IdResult}
    (h : identifyPos ev prec x cons full mc tol quad = .ok res) :
    ∀ s ∈ resStrings res, BuiltFromBounded ev mc s := by
  unfold identifyPos at h
  simp only [Bind.bind, Except.bind] at h
  split at h
  · cases h
  · rename_i v hv
    split at h
    · rename_i s'
      have hb := (searchPairs_built _ _ [] (by simp) _ hv).1 s' rfl
      have hres : IdResult.single s' = res := Except.ok.inj h
      intro s hs
      rw [← hres] at hs
      rw [List.mem_singleton.mp hs]
      exact hb
    · have hsols := (searchPairs_built _ _ [] (by simp) _ hv).2 _ rfl
      exact identifyFallback_built _ hsols h

/-- C2: for every positive input, every formula string `identify` returns — in
both the transform × constant search and the fallback multiplicative search —
is built from a relation vector whose maximum absolute coefficient is at most
`maxcoeff`; a relation with any larger coefficient never yields a returned
formula. -/
theorem identify_formulas_from_bounded_relations (ev : NumEngine) (prec : Nat) (x : MpReal)
    (cons : ConstantsArg) (full : Bool) (mc : Int) (tol : Option MpReal) (quad : Bool)
    (res : IdResult) (hx : (MpReal.ofInt 0).qlt x = true)
    (h : identify ev prec x cons full mc tol quad = .ok res) :
    ∀ s ∈ resStrings res, BuiltFromBounded ev mc s := by
  obtain ⟨h0, h1⟩ := qlt_pos_facts hx
  rw [identify, if_neg (by simp [h0]), dif_neg (by simp [h1])] at h
  exact identifyPos_built ev prec x cons full mc tol quad h

set_option maxRecDepth 4000000 in
/-- C2 witness: `identify` at the input `1/2` returns the formula `(1/2)`,
which is built from a bounded relation. -/
theorem identify_formulas_from_bounded_relations_witness :
    BuiltFromBounded testEngine 1000 "(1/2)" :=
  identify_formulas_from_bounded_relations testEngine 53 ⟨1, 2⟩ (ConstantsArg.exprs [])
    false 1000 none true (.single "(1/2)") (by decide)
    (by rw [identify]; norm_num [MpReal.qeq, MpReal.qlt, MpReal.ofInt]; rfl)
    "(1/2)" (List.mem_singleton.mpr rfl)

end MP
